import Mathlib

set_option maxRecDepth 10000
set_option maxHeartbeats 2000000

/-!
Verification development for the LFC wavelength-calibration pipeline of
`calibration_functions.py`.

Modelling conventions: IEEE double arithmetic is idealised as exact rational
(`ℚ`) arithmetic for the data-flow that the claims quantify over, and as real
(`ℝ`) arithmetic for the transcendental super-Gaussian shape model.  NumPy
arrays are lists, Python exceptions are `Option.none`, and the two external
collaborators (the iminuit minimizer and the `scipy.stats.chi2.sf` survival
function, both explicitly out of scope in the specification) are oracle
function parameters.
-/

/-- Python `int(q)`: truncation toward zero. -/
def py_int (q : ℚ) : ℤ := if 0 ≤ q then ⌊q⌋ else ⌈q⌉

/-- `np.diff`: consecutive differences of an integer array. -/
def pydiff (l : List ℤ) : List ℤ := (l.zip l.tail).map fun p => p.2 - p.1

/-- `get_peak_index_ranges(peak_locs, peak_range_size=np.nan)`.
`peak_range_size = none` models the `np.nan` default; in that case the size is
`int(np.mean(np.diff(peak_locs)))`, and `np.mean` of the empty difference list
is `nan`, on which `int` raises `ValueError` — modelled as `none`.  Each window
is `[int(p - size/2), int(p + size/2)]`, both endpoints truncated toward zero
independently. -/
def get_peak_index_ranges (peak_locs : List ℤ) (peak_range_size : Option ℚ) :
    Option (List (ℤ × ℤ)) :=
  let size? : Option ℚ :=
    match peak_range_size with
    | some s => some s
    | none =>
      let d := pydiff peak_locs
      if d.isEmpty then none
      else some ((py_int ((d.sum : ℚ) / (d.length : ℚ)) : ℤ) : ℚ)
  size?.map fun size =>
    peak_locs.map fun nPeak : ℤ =>
      (py_int ((nPeak : ℚ) - size / 2), py_int ((nPeak : ℚ) + size / 2))

/-- `true_wavel(n)` from `get_true_wavel`: the wavelength (in Ångström) of comb
mode `n`, `c / (v_rep·n + v_offset) · 1e10`. -/
def true_wavel (n : ℕ) : ℚ :=
  let c : ℚ := 299792458
  let v_rep : ℚ := 14e9
  let v_offset : ℚ := 6.19e9
  let f := v_rep * (n : ℚ) + v_offset
  c / f * 1e10

/-- Fuel-indexed search for the first mode index `≥ n` whose wavelength is at or
below `thr`; this is the loop `while wavel_true[-1][0] > wavel_given_min * (1 - 0.001)`
of `get_true_wavel`, which keeps appending modes until the last generated
wavelength is at or below the threshold. -/
def findStop (thr : ℚ) : ℕ → ℕ → ℕ
  | 0, n => n
  | fuel+1, n => if true_wavel n ≤ thr then n else findStop thr fuel (n+1)

/-- Sufficient fuel for `findStop`: beyond `⌈c·1e10 / (v_rep·thr)⌉` the comb
wavelengths are below `thr`.  For `thr ≤ 0` the source loop never terminates;
the model returns no fuel there (that regime is outside every claim). -/
def fuelFor (thr : ℚ) : ℕ :=
  if 0 < thr then (⌈(2997924580000000000 : ℚ) / (14000000000 * thr)⌉).toNat + 1 else 0

/-- Index of the last comb mode generated by `get_true_wavel` for a given
`wavel_given_min`: the loop starts from the list `[λ(0), λ(1)]` and appends
`λ(2), λ(3), …` while the last entry exceeds `wavel_given_min * (1 - 0.001)`. -/
def lastN (wmin : ℚ) : ℕ :=
  findStop (wmin * (1 - 1/1000)) (fuelFor (wmin * (1 - 1/1000))) 1

/-- The candidate list of `get_true_wavel` in its final matching order: modes
`0, 1, …, lastN wmin` paired with their wavelengths, cut to wavelengths below
`wavel_given_max * (1 + 0.001)`, then reversed (ascending wavelength). -/
def tw_candidates (wmin wmax : ℚ) : List (ℚ × ℕ) :=
  (((List.range (lastN wmin + 1)).map fun n => (true_wavel n, n)).filter
      fun p => p.1 < wmax * (1 + 1/1000)).reverse

/-- The same candidates in generated order (`n = 0, 1, 2, …`, before the final
reversal); used to state the specification's tie-break order. -/
def tw_candidates_generated (wmin wmax : ℚ) : List (ℚ × ℕ) :=
  ((List.range (lastN wmin + 1)).map fun n => (true_wavel n, n)).filter
    fun p => p.1 < wmax * (1 + 1/1000)

/-- Boolean equality test on rationals, `val == min_val`, implemented by two
order comparisons; `rat_eqb_iff` below proves it is exactly rational equality
(this formulation keeps concrete evaluation inside the order primitives). -/
def rat_eqb (a b : ℚ) : Bool := decide (a ≤ b) && decide (b ≤ a)

/-- Python `min(iterable, key=…)` folding: keeps the current best and replaces
it only on a strictly smaller key, so the first minimal element wins. -/
def pyfoldMin {α : Type} (key : α → ℚ) (x : α) (xs : List α) : α :=
  xs.foldl (fun b v => if key v < key b then v else b) x

/-- Python `min(l, key=…)` on a list of rationals: `none` models the
`ValueError` raised on an empty iterable. -/
def pymin_key (key : ℚ → ℚ) : List ℚ → Option ℚ
  | [] => none
  | x :: xs => some (pyfoldMin key x xs)

/-- One matching step of `get_true_wavel`: `min_val` is the candidate wavelength
of minimum absolute difference to `lambd_given` (Python `min` with key
`abs(x - lambd_given)`), and the mode `n` is read off the first candidate entry
whose wavelength equals `min_val`. -/
def match_one (wavel_true : List (ℚ × ℕ)) (lambd_given : ℚ) : ℚ × ℕ :=
  let min_val := (pymin_key (fun x => |x - lambd_given|) (wavel_true.map Prod.fst)).getD 0
  let min_val_index := wavel_true.findIdx fun p => rat_eqb p.1 min_val
  (min_val, (wavel_true.getD min_val_index (0, 0)).2)

/-- `wavel_given = data_wavel_given[peak_locs]`: the nominal wavelengths read
off at the detected peak pixels. -/
def wavel_given_of (data_wavel_given : List ℚ) (peak_locs : List ℕ) : List ℚ :=
  peak_locs.map fun i => data_wavel_given.getD i 0

/-- `get_true_wavel(data_wavel_given, peak_locs)`: the nominal wavelengths at
the peaks are matched against the generated comb wavelengths.  `none` models
the `IndexError` on `wavel_given[0]` for an empty peak list, and the
`ValueError` of `min` over an empty candidate list. -/
def get_true_wavel (data_wavel_given : List ℚ) (peak_locs : List ℕ) :
    Option (List (ℚ × ℕ)) :=
  let wavel_given := wavel_given_of data_wavel_given peak_locs
  match wavel_given with
  | [] => none
  | w0 :: _ =>
    let wavel_true := tw_candidates w0 (wavel_given.getLastD 0)
    if wavel_true.isEmpty then none
    else some (wavel_given.map fun lambd_given => match_one wavel_true lambd_given)

/-- Modelled from the claim wording for C1: nearest-candidate selection with
ties broken by first occurrence in the generated `n = 0, 1, 2, …` sequence
(whereas the source iterates the reversed list). -/
def claimed_generated_order_match (wmin wmax lambd_given : ℚ) : Option (ℚ × ℕ) :=
  match tw_candidates_generated wmin wmax with
  | [] => none
  | c :: cs => some (pyfoldMin (fun p => |p.1 - lambd_given|) c cs)

/-- `calib_poly_func_1`. -/
def calib_poly_func_1 (x c0 c1 : ℚ) : ℚ := c0 + c1*x

/-- `calib_poly_func_2`. -/
def calib_poly_func_2 (x c0 c1 c2 : ℚ) : ℚ := c0 + c1*x + c2*x^2

/-- `calib_poly_func_3`. -/
def calib_poly_func_3 (x c0 c1 c2 c3 : ℚ) : ℚ := c0 + c1*x + c2*x^2 + c3*x^3

/-- `calib_poly_func_4`. -/
def calib_poly_func_4 (x c0 c1 c2 c3 c4 : ℚ) : ℚ := c0 + c1*x + c2*x^2 + c3*x^3 + c4*x^4

/-- `calib_poly_func_5`. -/
def calib_poly_func_5 (x c0 c1 c2 c3 c4 c5 : ℚ) : ℚ :=
  c0 + c1*x + c2*x^2 + c3*x^3 + c4*x^4 + c5*x^5

/-- `calib_poly_func_6`. -/
def calib_poly_func_6 (x c0 c1 c2 c3 c4 c5 c6 : ℚ) : ℚ :=
  c0 + c1*x + c2*x^2 + c3*x^3 + c4*x^4 + c5*x^5 + c6*x^6

/-- `calib_poly_func_7`. -/
def calib_poly_func_7 (x c0 c1 c2 c3 c4 c5 c6 c7 : ℚ) : ℚ :=
  c0 + c1*x + c2*x^2 + c3*x^3 + c4*x^4 + c5*x^5 + c6*x^6 + c7*x^7

/-- `calib_poly_func_8`. -/
def calib_poly_func_8 (x c0 c1 c2 c3 c4 c5 c6 c7 c8 : ℚ) : ℚ :=
  c0 + c1*x + c2*x^2 + c3*x^3 + c4*x^4 + c5*x^5 + c6*x^6 + c7*x^7 + c8*x^8

/-- `calib_poly_func_9`. -/
def calib_poly_func_9 (x c0 c1 c2 c3 c4 c5 c6 c7 c8 c9 : ℚ) : ℚ :=
  c0 + c1*x + c2*x^2 + c3*x^3 + c4*x^4 + c5*x^5 + c6*x^6 + c7*x^7 + c8*x^8 + c9*x^9

/-- `get_calib_poly_func(degree)`: the `assert (degree == np.arange(1, 10)).any()`
failing (an `AssertionError` for a degree outside 1..9) is modelled as `none`;
the `exec`-based name lookup is modelled as a fixed dispatch.  The returned
evaluator takes the coefficient vector as a list, applied positionally as
iminuit would pass `*par`. -/
def get_calib_poly_func (degree : ℕ) : Option (ℚ → List ℚ → ℚ) :=
  match degree with
  | 1 => some fun x c => calib_poly_func_1 x (c.getD 0 0) (c.getD 1 0)
  | 2 => some fun x c => calib_poly_func_2 x (c.getD 0 0) (c.getD 1 0) (c.getD 2 0)
  | 3 => some fun x c => calib_poly_func_3 x (c.getD 0 0) (c.getD 1 0) (c.getD 2 0) (c.getD 3 0)
  | 4 => some fun x c =>
      calib_poly_func_4 x (c.getD 0 0) (c.getD 1 0) (c.getD 2 0) (c.getD 3 0) (c.getD 4 0)
  | 5 => some fun x c =>
      calib_poly_func_5 x (c.getD 0 0) (c.getD 1 0) (c.getD 2 0) (c.getD 3 0) (c.getD 4 0)
        (c.getD 5 0)
  | 6 => some fun x c =>
      calib_poly_func_6 x (c.getD 0 0) (c.getD 1 0) (c.getD 2 0) (c.getD 3 0) (c.getD 4 0)
        (c.getD 5 0) (c.getD 6 0)
  | 7 => some fun x c =>
      calib_poly_func_7 x (c.getD 0 0) (c.getD 1 0) (c.getD 2 0) (c.getD 3 0) (c.getD 4 0)
        (c.getD 5 0) (c.getD 6 0) (c.getD 7 0)
  | 8 => some fun x c =>
      calib_poly_func_8 x (c.getD 0 0) (c.getD 1 0) (c.getD 2 0) (c.getD 3 0) (c.getD 4 0)
        (c.getD 5 0) (c.getD 6 0) (c.getD 7 0) (c.getD 8 0)
  | 9 => some fun x c =>
      calib_poly_func_9 x (c.getD 0 0) (c.getD 1 0) (c.getD 2 0) (c.getD 3 0) (c.getD 4 0)
        (c.getD 5 0) (c.getD 6 0) (c.getD 7 0) (c.getD 8 0) (c.getD 9 0)
  | _ => none

/-- `compute_f(f, x, *par)`: the vectorized application of the model is an
oracle `fvec` (NumPy may raise `ValueError`, modelled as `none`), and the
scalar application is `f`; on failure the function falls back to the
element-by-element list comprehension. -/
def compute_f (fvec : List ℚ → List ℚ → Option (List ℚ)) (f : ℚ → List ℚ → ℚ)
    (x : List ℚ) (par : List ℚ) : List ℚ :=
  match fvec x par with
  | some y => y
  | none => x.map fun xi => f xi par

/-- The vectorized oracle agrees with the pointwise map of the scalar model
wherever it succeeds — i.e. `fvec` really is the vectorized evaluation of `f`. -/
def Vectorizes (fvec : List ℚ → List ℚ → Option (List ℚ)) (f : ℚ → List ℚ → ℚ) : Prop :=
  ∀ x par y, fvec x par = some y → y = x.map fun xi => f xi par

/-- `Chi2Regression.__call__`: `sum(weights * (y - f)**2 / sy**2)` with the
model value computed through `compute_f`. -/
def chi2_regression_call (fvec : List ℚ → List ℚ → Option (List ℚ))
    (f : ℚ → List ℚ → ℚ) (x y sy weights : List ℚ) (par : List ℚ) : ℚ :=
  let fv := compute_f fvec f x par
  (((y.zip fv).zip (sy.zip weights)).map fun t =>
    t.2.2 * (t.1.1 - t.1.2)^2 / t.2.1^2).sum

/-- Result record of one `minuit.migrad()` call: best values and marginal
errors of the five shape parameters, the minimized objective `fval`, and the
`fmin.is_valid` convergence flag.  The minimizer itself is an external
collaborator and enters the model as an oracle. -/
structure MinuitOut where
  A : ℝ
  mu : ℝ
  sigma : ℝ
  P : ℝ
  C : ℝ
  A_err : ℝ
  mu_err : ℝ
  sigma_err : ℝ
  P_err : ℝ
  C_err : ℝ
  fval : ℝ
  is_valid : Bool

/-- Oracle type of the external minimizer: it receives the chi-square objective
in the five shape parameters `(A, mu, sigma, P, C)` together with their initial
values, and returns a `MinuitOut`. -/
def Minimizer : Type := (ℝ → ℝ → ℝ → ℝ → ℝ → ℝ) → (ℝ × ℝ × ℝ × ℝ × ℝ) → MinuitOut

/-- `np.arange(index_start, index_end)` on integers. -/
def intRange (s e : ℤ) : List ℤ := (List.range (e - s).toNat).map fun k : ℕ => s + (k : ℤ)

/-- Normalisation of one Python slice endpoint for a sequence of length `len`:
negative indices count from the end, then the result is clamped to `[0, len]`. -/
def sliceIdx (len : ℕ) (i : ℤ) : ℕ := (min (if i < 0 then i + len else i) (len : ℤ)).toNat

/-- Python slice `l[a:b]`. -/
def pySlice {α : Type} (l : List α) (a b : ℤ) : List α :=
  (l.take (sliceIdx l.length b)).drop (sliceIdx l.length a)

/-- The super-Gaussian line-shape model of `fit_peaks`
(`b` defaults to `0` exactly as in the source). -/
noncomputable def super_gauss (x A mu sigma P C : ℝ) (b : ℝ := 0) : ℝ :=
  let z := (x - mu)^2 / (2 * sigma^2)
  A * Real.exp (-(z ^ P)) + C + b * (x - mu)

/-- The chi-square objective `model_chi` of `fit_peaks` over a window with
pixel indices `x`, fluxes `y` and uncertainties `ey`:
`np.sum(((y - super_gauss(x, …)) / ey)**2)`. -/
noncomputable def model_chi (x : List ℤ) (y ey : List ℝ) (A mu sigma P C : ℝ) : ℝ :=
  ((x.zip (y.zip ey)).map fun t =>
    ((t.2.1 - super_gauss (t.1 : ℝ) A mu sigma P C) / t.2.2)^2).sum

/-- `np.mean` of an integer array as a real (`0` on the empty array, where
NumPy would produce `nan`; no claim touches that case). -/
noncomputable def np_mean_int (l : List ℤ) : ℝ := (l.map fun i : ℤ => (i : ℝ)).sum / l.length

/-- The `Minuit(model_chi, A=0.87, mu=np.mean(x), sigma=-1.8, P=1.3, C=0.12)`
plus `migrad()` call of `fit_peaks` for one window `r = (index_start, index_end)`. -/
noncomputable def minuit_for (minimizer : Minimizer)
    (data_spec data_spec_err : List ℝ) (r : ℤ × ℤ) : MinuitOut :=
  let x := intRange r.1 r.2
  let y := pySlice data_spec r.1 r.2
  let ey := pySlice data_spec_err r.1 r.2
  minimizer (model_chi x y ey) (0.87, np_mean_int x, -1.8, 1.3, 0.12)

/-- One row of the `fit_peaks` result array, in the source's column order
`A, A_err, mu, mu_err, sigma, sigma_err, C, C_err, chi2, ndof, converged,
index_start, index_end, prob, P, P_err`. -/
structure PeakFit where
  A : ℝ
  A_err : ℝ
  mu : ℝ
  mu_err : ℝ
  sigma : ℝ
  sigma_err : ℝ
  C : ℝ
  C_err : ℝ
  chi2 : ℝ
  ndof : ℤ
  converged : Bool
  index_start : ℤ
  index_end : ℤ
  prob : ℝ
  P : ℝ
  P_err : ℝ

/-- The body of the `fit_peaks` loop for one window: run the minimizer and
record its state; `ndof = Npoints - len(minuit.values[:])` with the five free
parameters `A, mu, sigma, P, C`; `prob = stats.chi2.sf(chi2, ndof)` through the
external survival-function oracle `chi2_sf`.  A row is produced whether or not
the minimizer converged. -/
noncomputable def fit_peak_window (minimizer : Minimizer) (chi2_sf : ℝ → ℤ → ℝ)
    (data_spec data_spec_err : List ℝ) (r : ℤ × ℤ) : PeakFit :=
  let m := minuit_for minimizer data_spec data_spec_err r
  let Npoints : ℤ := ((intRange r.1 r.2).length : ℤ)
  let ndof : ℤ := Npoints - 5
  { A := m.A, A_err := m.A_err, mu := m.mu, mu_err := m.mu_err,
    sigma := m.sigma, sigma_err := m.sigma_err, C := m.C, C_err := m.C_err,
    chi2 := m.fval, ndof := ndof, converged := m.is_valid,
    index_start := r.1, index_end := r.2,
    prob := chi2_sf m.fval ndof, P := m.P, P_err := m.P_err }

/-- `fit_peaks(data_spec, data_spec_err, peak_index_ranges)`: one result row
per window, in window order. -/
noncomputable def fit_peaks (minimizer : Minimizer) (chi2_sf : ℝ → ℤ → ℝ)
    (data_spec data_spec_err : List ℝ) (peak_index_ranges : List (ℤ × ℤ)) : List PeakFit :=
  peak_index_ranges.map (fit_peak_window minimizer chi2_sf data_spec data_spec_err)

/-- One entry of the `results` list of `fit_all_peaks_in_all_orders`:
`degenerate order` models the `[order, [[np.nan]], [[np.nan]], [np.nan]]`
sentinel row appended when fewer than 10 peaks are found, and `fitted` models
`[order, peak_fits, wavel_true, data_wavel[peak_locs]]`. -/
inductive OrderResult where
  | degenerate (order : ℕ)
  | fitted (order : ℕ) (peak_fits : List PeakFit) (wavel_true : List (ℚ × ℕ))
      (wavel_at_peaks : List ℚ)

/-- The per-order body of `fit_all_peaks_in_all_orders`.  The peak detector
(`func_find_peaks(data_spec, 11, 0.15)[0]`, a thin wrapper over the external
`scipy.signal` routines) is the oracle `detector`.  With `correct_errors` the
uncertainties are scaled by the caller's factor or by `√3`.  Below 10 peaks the
degenerate sentinel is emitted and nothing else runs; otherwise windows, shape
fits and wavelength matches are assembled.  `none` models an uncaught Python
exception from the matcher (or the unreachable window-size failure). -/
noncomputable def process_order (detector : List ℚ → List ℕ) (minimizer : Minimizer)
    (chi2_sf : ℝ → ℤ → ℝ) (correct_errors : Bool) (custom_error_factor : Option ℚ)
    (dat : List ℚ × List ℚ × List ℚ) (order : ℕ) : Option OrderResult :=
  let data_spec := dat.1
  let data_spec_err : List ℝ :=
    if correct_errors then
      match custom_error_factor with
      | some f => dat.2.1.map fun v : ℚ => (v : ℝ) * (f : ℝ)
      | none => dat.2.1.map fun v : ℚ => (v : ℝ) * Real.sqrt 3
    else dat.2.1.map fun v : ℚ => (v : ℝ)
  let data_wavel := dat.2.2
  let peak_locs := detector data_spec
  if peak_locs.length < 10 then some (OrderResult.degenerate order)
  else
    match get_peak_index_ranges (peak_locs.map fun i : ℕ => (i : ℤ)) none with
    | none => none
    | some peak_index_ranges =>
      let peak_fits := fit_peaks minimizer chi2_sf (data_spec.map fun v : ℚ => (v : ℝ))
        data_spec_err peak_index_ranges
      match get_true_wavel data_wavel peak_locs with
      | none => none
      | some wavel_true =>
        some (OrderResult.fitted order peak_fits wavel_true
          (peak_locs.map fun i => data_wavel.getD i 0))

/-- The `for order in range(40, 76)` loop: each order appends one entry; an
uncaught exception (`none`) aborts the whole run. -/
def run_orders (step : ℕ → Option OrderResult) : List ℕ → Option (List OrderResult)
  | [] => some []
  | o :: rest =>
    match step o with
    | none => none
    | some r =>
      match run_orders step rest with
      | none => none
      | some rs => some (r :: rs)

/-- `fit_all_peaks_in_all_orders`: the FITS loading is an external collaborator,
modelled by `data : ℕ → (spectrum, uncertainty, wavelength)` per order. -/
noncomputable def fit_all_peaks_in_all_orders (detector : List ℚ → List ℕ)
    (minimizer : Minimizer) (chi2_sf : ℝ → ℤ → ℝ)
    (data : ℕ → List ℚ × List ℚ × List ℚ)
    (correct_errors : Bool) (custom_error_factor : Option ℚ) : Option (List OrderResult) :=
  run_orders
    (fun order => process_order detector minimizer chi2_sf correct_errors
      custom_error_factor (data order) order)
    (List.range' 40 36)

theorem rat_eqb_iff {a b : ℚ} : rat_eqb a b = true ↔ a = b := by
  rw [rat_eqb, Bool.and_eq_true, decide_eq_true_eq, decide_eq_true_eq, ← le_antisymm_iff]

theorem pydiff_length (l : List ℤ) : (pydiff l).length = l.length - 1 := by
  simp [pydiff, List.length_zip, List.length_tail]

theorem pydiff_cons_sum : ∀ (t : List ℤ) (a : ℤ), (pydiff (a :: t)).sum = t.getLastD a - a := by
  intro t
  induction t with
  | nil => intro a; simp [pydiff]
  | cons b t2 ih =>
    intro a
    have hstep : pydiff (a :: b :: t2) = (b - a) :: pydiff (b :: t2) := rfl
    rw [hstep, List.sum_cons, ih b, List.getLastD_cons]
    ring

theorem intRange_length (s e : ℤ) : (intRange s e).length = (e - s).toNat := by
  rw [intRange, List.length_map, List.length_range]

/-- C2: for every natural number `n`, the generated true wavelength of comb
mode `n` equals `c / (v_rep·n + v_offset) · 1e10` with `c = 299792458`,
`v_rep = 14e9`, `v_offset = 6.19e9`; in particular `λ(0)` and `λ(1)` equal this
closed form exactly. -/
theorem true_wavel_closed_form :
    (∀ n : ℕ, true_wavel n = 2997924580000000000 / (14000000000 * (n : ℚ) + 6190000000)) ∧
    true_wavel 0 = 2997924580000000000 / 6190000000 ∧
    true_wavel 1 = 2997924580000000000 / 20190000000 := by
  have h : ∀ n : ℕ, true_wavel n = 2997924580000000000 / (14000000000 * (n : ℚ) + 6190000000) := by
    intro n
    show (299792458 : ℚ) / (14e9 * (n : ℚ) + 6.19e9) * 1e10 = _
    rw [div_mul_eq_mul_div]
    norm_num
  refine ⟨h, ?_, ?_⟩ <;> rw [h] <;> norm_num

/-- C3: with an explicit window size `s`, the window builder emits
`(int(p - s/2), int(p + s/2))` for every peak `p`, in input order, where
`py_int` is characterised as truncation toward zero (`|py_int q| ≤ |q|`,
`|q| - 1 < |py_int q|`, and `py_int q` has the sign of `q`); for peaks
`[100, 200, 300]` with the size inferred from the mean spacing, the windows are
exactly `[50,150], [150,250], [250,350]`. -/
theorem get_peak_index_ranges_truncated_windows :
    (∀ (peak_locs : List ℤ) (s : ℚ),
      get_peak_index_ranges peak_locs (some s) =
        some (peak_locs.map fun p : ℤ =>
          (py_int ((p : ℚ) - s / 2), py_int ((p : ℚ) + s / 2)))) ∧
    (∀ q : ℚ, |(py_int q : ℚ)| ≤ |q| ∧ |q| - 1 < |(py_int q : ℚ)| ∧ 0 ≤ (py_int q : ℚ) * q) ∧
    get_peak_index_ranges [100, 200, 300] none = some [(50, 150), (150, 250), (250, 350)] := by
  refine ⟨fun peak_locs s => rfl, fun q => ?_, by with_unfolding_all decide⟩
  by_cases hq : 0 ≤ q
  · have h1 : (py_int q : ℚ) = ((⌊q⌋ : ℤ) : ℚ) := by rw [py_int, if_pos hq]
    have hf0 : (0 : ℚ) ≤ ((⌊q⌋ : ℤ) : ℚ) := by exact_mod_cast Int.floor_nonneg.mpr hq
    have hfle : ((⌊q⌋ : ℤ) : ℚ) ≤ q := Int.floor_le q
    have hflt : q - 1 < ((⌊q⌋ : ℤ) : ℚ) := Int.sub_one_lt_floor q
    rw [h1, abs_of_nonneg hq, abs_of_nonneg hf0]
    exact ⟨hfle, hflt, mul_nonneg hf0 hq⟩
  · push_neg at hq
    have h1 : (py_int q : ℚ) = ((⌈q⌉ : ℤ) : ℚ) := by rw [py_int, if_neg (not_le.mpr hq)]
    have hc0 : ((⌈q⌉ : ℤ) : ℚ) ≤ 0 := by
      have : ⌈q⌉ ≤ (0 : ℤ) := Int.ceil_le.mpr (by exact_mod_cast hq.le)
      exact_mod_cast this
    have hcge : q ≤ ((⌈q⌉ : ℤ) : ℚ) := Int.le_ceil q
    have hclt : ((⌈q⌉ : ℤ) : ℚ) < q + 1 := Int.ceil_lt_add_one q
    rw [h1, abs_of_nonpos hq.le, abs_of_nonpos hc0]
    exact ⟨by linarith, by linarith, mul_nonneg_of_nonpos_of_nonpos hc0 hq.le⟩

/-- C7: with the window size omitted, the builder infers it as the truncated
mean of consecutive peak differences — which telescopes to
`(last - first)/(count - 1)` — and this inference succeeds exactly when at
least two peaks are given; for fewer, the error branch (`int(np.mean([]))`)
is reached. -/
theorem inferred_window_size_requires_two_peaks :
    ∀ peak_locs : List ℤ,
      ((get_peak_index_ranges peak_locs none).isSome ↔ 2 ≤ peak_locs.length) ∧
      (2 ≤ peak_locs.length →
        get_peak_index_ranges peak_locs none =
          (let size : ℚ :=
            ((py_int ((((peak_locs.getLastD 0 - peak_locs.headD 0 : ℤ)) : ℚ) /
              ((peak_locs.length : ℚ) - 1))) : ℚ)
          some (peak_locs.map fun p : ℤ =>
            (py_int ((p : ℚ) - size / 2), py_int ((p : ℚ) + size / 2))))) := by
  intro l
  match l with
  | [] =>
    refine ⟨by simp [get_peak_index_ranges, pydiff], fun h => absurd h (by decide)⟩
  | [a] =>
    refine ⟨by simp [get_peak_index_ranges, pydiff], fun h => by simp at h⟩
  | a :: b :: t =>
    have hstep : pydiff (a :: b :: t) = (b - a) :: pydiff (b :: t) := rfl
    constructor
    · simp only [get_peak_index_ranges, hstep]
      simp [List.length_cons]
    · intro _
      have hq : ((pydiff (a :: b :: t)).sum : ℚ) / ((pydiff (a :: b :: t)).length : ℚ) =
          ((((a :: b :: t).getLastD 0 - (a :: b :: t).headD 0 : ℤ)) : ℚ) /
            (((a :: b :: t).length : ℚ) - 1) := by
        have hsum : (pydiff (a :: b :: t)).sum =
            (a :: b :: t).getLastD 0 - (a :: b :: t).headD 0 := by
          rw [pydiff_cons_sum (b :: t) a]
          simp only [List.getLastD_cons, List.headD_cons]
        have hlen : ((pydiff (a :: b :: t)).length : ℚ) = (((a :: b :: t).length : ℚ) - 1) := by
          rw [pydiff_length]
          push_cast [List.length_cons]
          ring
        rw [hsum, hlen]
      simp only [get_peak_index_ranges, hq]
      simp [hstep]

/-- Witness for C7: for the two peaks `[10, 15]` the inferred size is `5` and
the windows are `[7, 12]` and `[12, 17]`. -/
theorem inferred_window_size_requires_two_peaks_app :
    get_peak_index_ranges [10, 15] none = some [(7, 12), (12, 17)] := by
  have h := (inferred_window_size_requires_two_peaks [10, 15]).2 (by norm_num)
  rw [h]
  with_unfolding_all decide

/-- C8: requesting a calibration polynomial for a degree outside `[1, 9]` fails
immediately (`none`, the assertion error), while every degree `d ∈ [1, 9]`
yields the evaluator `x ↦ ∑ k ≤ d, c_k·x^k`. -/
theorem get_calib_poly_func_degree_range :
    ∀ degree : ℕ,
      (get_calib_poly_func degree = none ↔ (degree = 0 ∨ 10 ≤ degree)) ∧
      (1 ≤ degree → degree ≤ 9 → ∀ (x : ℚ) (c : List ℚ),
        ((get_calib_poly_func degree).getD (fun _ _ => 0)) x c =
          ∑ k ∈ Finset.range (degree + 1), c.getD k 0 * x ^ k) := by
  intro d
  match d with
  | 0 => exact ⟨by simp [get_calib_poly_func], by omega⟩
  | 1 =>
    refine ⟨by simp [get_calib_poly_func], fun _ _ x c => ?_⟩
    simp [get_calib_poly_func, calib_poly_func_1, Finset.sum_range_succ]
  | 2 =>
    refine ⟨by simp [get_calib_poly_func], fun _ _ x c => ?_⟩
    simp [get_calib_poly_func, calib_poly_func_2, Finset.sum_range_succ]
  | 3 =>
    refine ⟨by simp [get_calib_poly_func], fun _ _ x c => ?_⟩
    simp [get_calib_poly_func, calib_poly_func_3, Finset.sum_range_succ]
  | 4 =>
    refine ⟨by simp [get_calib_poly_func], fun _ _ x c => ?_⟩
    simp [get_calib_poly_func, calib_poly_func_4, Finset.sum_range_succ]
  | 5 =>
    refine ⟨by simp [get_calib_poly_func], fun _ _ x c => ?_⟩
    simp [get_calib_poly_func, calib_poly_func_5, Finset.sum_range_succ]
  | 6 =>
    refine ⟨by simp [get_calib_poly_func], fun _ _ x c => ?_⟩
    simp [get_calib_poly_func, calib_poly_func_6, Finset.sum_range_succ]
  | 7 =>
    refine ⟨by simp [get_calib_poly_func], fun _ _ x c => ?_⟩
    simp [get_calib_poly_func, calib_poly_func_7, Finset.sum_range_succ]
  | 8 =>
    refine ⟨by simp [get_calib_poly_func], fun _ _ x c => ?_⟩
    simp [get_calib_poly_func, calib_poly_func_8, Finset.sum_range_succ]
  | 9 =>
    refine ⟨by simp [get_calib_poly_func], fun _ _ x c => ?_⟩
    simp [get_calib_poly_func, calib_poly_func_9, Finset.sum_range_succ]
  | (n+10) =>
    refine ⟨?_, by omega⟩
    have h10 : get_calib_poly_func (n+10) = none := rfl
    simp only [h10, true_iff]
    omega

/-- Witness for C8: the degree-3 evaluator at `x = 2` with coefficients
`[5, 4, 3, 2]` gives `5 + 4·2 + 3·4 + 2·8 = 41`. -/
theorem get_calib_poly_func_degree_range_app :
    ((get_calib_poly_func 3).getD (fun _ _ => 0)) 2 [5, 4, 3, 2] = 41 := by
  have h := (get_calib_poly_func_degree_range 3).2 (by norm_num) (by norm_num) 2 [5, 4, 3, 2]
  rw [h]
  with_unfolding_all decide

/-- C9: whenever the vectorized application oracle agrees with the pointwise
scalar model wherever it succeeds, the element-by-element fallback of
`compute_f` produces exactly the pointwise (vectorized) output — so the
fallback is invisible to the chi-square objective. -/
theorem compute_f_fallback_invisible :
    ∀ (fvec : List ℚ → List ℚ → Option (List ℚ)) (f : ℚ → List ℚ → ℚ)
      (x y sy weights par : List ℚ),
      Vectorizes fvec f →
      compute_f fvec f x par = (x.map fun xi => f xi par) ∧
      chi2_regression_call fvec f x y sy weights par =
        chi2_regression_call (fun xs ps => some (xs.map fun xi => f xi ps)) f x y sy
          weights par := by
  intro fvec f x y sy weights par hv
  have h1 : compute_f fvec f x par = x.map fun xi => f xi par := by
    unfold compute_f
    cases hfx : fvec x par with
    | none => rfl
    | some z => exact hv x par z hfx
  refine ⟨h1, ?_⟩
  unfold chi2_regression_call
  rw [h1]
  rfl

/-- Witness for C9: a vectorized oracle that always fails still yields the
pointwise evaluation through the fallback. -/
theorem compute_f_fallback_invisible_app :
    compute_f (fun _ _ => none) (fun xi par => xi * par.getD 0 1) [2, 3] [5] = [10, 15] := by
  have h := (compute_f_fallback_invisible (fun _ _ => none)
    (fun xi par => xi * par.getD 0 1) [2, 3] [] [] [] [5] (fun _ _ _ hz => nomatch hz)).1
  rw [h]
  with_unfolding_all decide

/-- C4: every fit result row reports `ndof = Npoints - 5`, where `Npoints` is
the number of pixels of its window `np.arange(index_start, index_end)` and `5`
counts the free shape parameters `A, mu, sigma, P, C`; the recorded window
bounds are the input window. -/
theorem fit_peaks_ndof_npoints_minus_five :
    ∀ (minimizer : Minimizer) (chi2_sf : ℝ → ℤ → ℝ) (data_spec data_spec_err : List ℝ)
      (peak_index_ranges : List (ℤ × ℤ)),
      List.Forall₂ (fun r pf =>
          pf.ndof = (((r.2 - r.1).toNat : ℤ)) - 5 ∧ pf.index_start = r.1 ∧ pf.index_end = r.2)
        peak_index_ranges
        (fit_peaks minimizer chi2_sf data_spec data_spec_err peak_index_ranges) := by
  intro m sf ds de ranges
  induction ranges with
  | nil => exact List.Forall₂.nil
  | cons r rest ih =>
    refine List.Forall₂.cons ⟨?_, rfl, rfl⟩ ih
    show ((intRange r.1 r.2).length : ℤ) - 5 = ((r.2 - r.1).toNat : ℤ) - 5
    rw [intRange_length]

/-- C5: the peak shape fitter is total — one result row per input window, in
order — and each row carries the minimizer's final parameter state together
with its validity flag (`converged = fmin.is_valid`), whether or not the
minimizer converged. -/
theorem fit_peaks_one_row_per_window_with_flag :
    ∀ (minimizer : Minimizer) (chi2_sf : ℝ → ℤ → ℝ) (data_spec data_spec_err : List ℝ)
      (peak_index_ranges : List (ℤ × ℤ)),
      (fit_peaks minimizer chi2_sf data_spec data_spec_err peak_index_ranges).length =
        peak_index_ranges.length ∧
      List.Forall₂ (fun r pf =>
          pf.converged = (minuit_for minimizer data_spec data_spec_err r).is_valid ∧
          pf.A = (minuit_for minimizer data_spec data_spec_err r).A ∧
          pf.mu = (minuit_for minimizer data_spec data_spec_err r).mu ∧
          pf.sigma = (minuit_for minimizer data_spec data_spec_err r).sigma ∧
          pf.P = (minuit_for minimizer data_spec data_spec_err r).P ∧
          pf.C = (minuit_for minimizer data_spec data_spec_err r).C ∧
          pf.chi2 = (minuit_for minimizer data_spec data_spec_err r).fval)
        peak_index_ranges
        (fit_peaks minimizer chi2_sf data_spec data_spec_err peak_index_ranges) := by
  intro m sf ds de ranges
  refine ⟨by simp [fit_peaks], ?_⟩
  induction ranges with
  | nil => exact List.Forall₂.nil
  | cons r rest ih => exact List.Forall₂.cons ⟨rfl, rfl, rfl, rfl, rfl, rfl, rfl⟩ ih

theorem run_orders_some_spec (step : ℕ → Option OrderResult) :
    ∀ (l : List ℕ) (res : List OrderResult), run_orders step l = some res →
      res.length = l.length ∧
      ∀ k, k < l.length →
        step (l.getD k 0) = some (res.getD k (OrderResult.degenerate 0)) := by
  intro l
  induction l with
  | nil =>
    intro res hres
    simp only [run_orders, Option.some.injEq] at hres
    subst hres
    exact ⟨rfl, fun k hk => absurd hk (by simp)⟩
  | cons o rest ih =>
    intro res hres
    simp only [run_orders] at hres
    cases ho : step o with
    | none => rw [ho] at hres; exact absurd hres (by simp)
    | some r =>
      rw [ho] at hres
      cases hrest : run_orders step rest with
      | none => rw [hrest] at hres; exact absurd hres (by simp)
      | some rs =>
        rw [hrest] at hres
        simp only [Option.some.injEq] at hres
        subst hres
        obtain ⟨hlen, hnth⟩ := ih rs hrest
        refine ⟨by simp [hlen], fun k hk => ?_⟩
        cases k with
        | zero => simpa using ho
        | succ k2 =>
          have hk2 : k2 < rest.length := by simpa using hk
          simpa using hnth k2 hk2

theorem range'_getD : ∀ (n s k : ℕ), k < n → (List.range' s n).getD k 0 = s + k := by
  intro n
  induction n with
  | zero => intro s k hk; omega
  | succ n2 ih =>
    intro s k hk
    have hr : List.range' s (n2 + 1) = s :: List.range' (s + 1) n2 := rfl
    rw [hr]
    cases k with
    | zero => simp
    | succ k2 =>
      rw [List.getD_cons_succ, ih (s + 1) k2 (by omega)]
      omega

/-- C6: whenever a whole orchestrator run succeeds, it emits exactly one result
per order of `range(40, 76)`, and every order in which the detector finds fewer
than 10 peaks yields the degenerate sentinel entry — independently of the
minimizer and survival-function oracles (the statement holds for all of them),
i.e. fitter and matcher are not invoked for that order, and the remaining
orders are still processed. -/
theorem fit_all_degenerate_below_ten_peaks :
    ∀ (detector : List ℚ → List ℕ) (minimizer : Minimizer) (chi2_sf : ℝ → ℤ → ℝ)
      (data : ℕ → List ℚ × List ℚ × List ℚ) (correct_errors : Bool)
      (custom_error_factor : Option ℚ) (res : List OrderResult),
      fit_all_peaks_in_all_orders detector minimizer chi2_sf data correct_errors
          custom_error_factor = some res →
      res.length = 36 ∧
      ∀ k, k < 36 → (detector (data (40 + k)).1).length < 10 →
        res.getD k (OrderResult.degenerate 0) = OrderResult.degenerate (40 + k) := by
  intro detector minimizer chi2_sf data ce cf res hres
  rw [fit_all_peaks_in_all_orders] at hres
  obtain ⟨hlen, hnth⟩ := run_orders_some_spec _ _ res hres
  have hlen36 : (List.range' 40 36).length = 36 := by simp
  refine ⟨by rw [hlen, hlen36], fun k hk hdet => ?_⟩
  have hk2 : k < (List.range' 40 36).length := by rw [hlen36]; exact hk
  have h := hnth k hk2
  rw [range'_getD 36 40 k hk] at h
  simp only [process_order] at h
  rw [if_pos hdet] at h
  exact (Option.some.injEq _ _ ▸ h).symm

/-- Witness for C6: with a detector that always finds 5 peaks, the whole run
succeeds, every order is degenerate, and entry 2 is the sentinel for order 42. -/
theorem fit_all_degenerate_below_ten_peaks_app :
    ((List.range' 40 36).map OrderResult.degenerate).getD 2 (OrderResult.degenerate 0) =
      OrderResult.degenerate 42 := by
  have h := fit_all_degenerate_below_ten_peaks (fun _ => [0, 1, 2, 3, 4])
    (fun _ _ => ⟨0, 0, 0, 0, 0, 0, 0, 0, 0, 0, 0, false⟩) (fun _ _ => 0)
    (fun _ => ([], [], [])) false none
    ((List.range' 40 36).map OrderResult.degenerate) rfl
  exact h.2 2 (by omega) (by decide)

theorem true_wavel_pos (n : ℕ) : 0 < true_wavel n := by
  show 0 < (299792458 : ℚ) / (14e9 * (n : ℚ) + 6.19e9) * 1e10
  have hden : (0 : ℚ) < 14e9 * (n : ℚ) + 6.19e9 := by positivity
  positivity

theorem true_wavel_le_of_ge (thr : ℚ) (hthr : 0 < thr) (m : ℕ)
    (hm : (2997924580000000000 : ℚ) / (14000000000 * thr) ≤ (m : ℚ)) :
    true_wavel m ≤ thr := by
  show (299792458 : ℚ) / (14e9 * (m : ℚ) + 6.19e9) * 1e10 ≤ thr
  have hden : (0 : ℚ) < 14e9 * (m : ℚ) + 6.19e9 := by positivity
  rw [div_mul_eq_mul_div, div_le_iff hden]
  have h1 : (2997924580000000000 : ℚ) ≤ 14000000000 * thr * (m : ℚ) := by
    have h0 := (div_le_iff (by positivity : (0 : ℚ) < 14000000000 * thr)).mp hm
    linarith
  have h2 : (0 : ℚ) < thr * 6190000000 := by positivity
  have h3 : thr * (14e9 * (m : ℚ) + 6.19e9) = 14000000000 * thr * (m : ℚ) + thr * 6190000000 := by
    norm_num
    ring
  norm_num
  linarith [h3, h1, h2]

theorem findStop_le (thr : ℚ) :
    ∀ (fuel n : ℕ), (∃ m, n ≤ m ∧ m ≤ n + fuel ∧ true_wavel m ≤ thr) →
      true_wavel (findStop thr fuel n) ≤ thr := by
  intro fuel
  induction fuel with
  | zero =>
    rintro n ⟨m, h1, h2, h3⟩
    have hm : m = n := by omega
    subst hm
    simpa [findStop] using h3
  | succ f ih =>
    rintro n ⟨m, h1, h2, h3⟩
    simp only [findStop]
    by_cases hn : true_wavel n ≤ thr
    · rw [if_pos hn]
      exact hn
    · rw [if_neg hn]
      apply ih
      refine ⟨m, ?_, by omega, h3⟩
      rcases Nat.eq_or_lt_of_le h1 with he | hl
      · exact absurd (he ▸ h3) hn
      · omega

theorem lastN_le (wmin : ℚ) (h : 0 < wmin) :
    true_wavel (lastN wmin) ≤ wmin * (1 - 1/1000) := by
  have hthr0 : 0 < wmin * (1 - 1/1000) := by
    have : (0 : ℚ) < 1 - 1/1000 := by norm_num
    positivity
  rw [lastN]
  apply findStop_le
  refine ⟨fuelFor (wmin * (1 - 1/1000)), ?_, by omega, ?_⟩
  · rw [fuelFor, if_pos hthr0]
    omega
  · apply true_wavel_le_of_ge _ hthr0
    rw [fuelFor, if_pos hthr0]
    have h1 : (2997924580000000000 : ℚ) / (14000000000 * (wmin * (1 - 1/1000))) ≤
        ((⌈(2997924580000000000 : ℚ) / (14000000000 * (wmin * (1 - 1/1000)))⌉ : ℤ) : ℚ) :=
      Int.le_ceil _
    have h2 : (0 : ℤ) ≤ ⌈(2997924580000000000 : ℚ) / (14000000000 * (wmin * (1 - 1/1000)))⌉ := by
      have hp : (0 : ℚ) < 2997924580000000000 / (14000000000 * (wmin * (1 - 1/1000))) := by
        positivity
      exact le_of_lt (Int.ceil_pos.mpr hp)
    calc (2997924580000000000 : ℚ) / (14000000000 * (wmin * (1 - 1/1000)))
        ≤ ((⌈(2997924580000000000 : ℚ) /
            (14000000000 * (wmin * (1 - 1/1000)))⌉ : ℤ) : ℚ) := Int.le_ceil _
      _ = (((⌈(2997924580000000000 : ℚ) /
            (14000000000 * (wmin * (1 - 1/1000)))⌉).toNat : ℕ) : ℚ) := by
          exact_mod_cast (Int.toNat_of_nonneg h2).symm
      _ ≤ (((⌈(2997924580000000000 : ℚ) /
            (14000000000 * (wmin * (1 - 1/1000)))⌉).toNat + 1 : ℕ) : ℚ) := by
          exact_mod_cast Nat.le_succ _

/-- C10: the matcher uses the first nominal peak wavelength as range minimum
and the last as range maximum; for positive increasing endpoints
(`0 < first ≤ last`) the generated-and-filtered candidate list is non-empty
and the matcher is total, whereas for the concrete input
`data_wavel = [λ(100), 1]`, `peak_locs = [0, 1]` (first `>` last) the candidate
list is empty, `min` over it fails, and the matcher raises
(for non-positive range minima the source's generation loop does not even
terminate, which is outside the shallow embedding; hence the positivity
hypothesis). -/
theorem get_true_wavel_endpoints :
    (∀ (data_wavel_given : List ℚ) (peak_locs : List ℕ),
      peak_locs ≠ [] →
      0 < (wavel_given_of data_wavel_given peak_locs).headD 0 →
      (wavel_given_of data_wavel_given peak_locs).headD 0 ≤
        (wavel_given_of data_wavel_given peak_locs).getLastD 0 →
      tw_candidates ((wavel_given_of data_wavel_given peak_locs).headD 0)
          ((wavel_given_of data_wavel_given peak_locs).getLastD 0) ≠ [] ∧
      (get_true_wavel data_wavel_given peak_locs).isSome = true) ∧
    (tw_candidates (true_wavel 100) 1 = [] ∧
      get_true_wavel [true_wavel 100, 1] [0, 1] = none ∧
      pymin_key (fun x => |x - 1|) ((tw_candidates (true_wavel 100) 1).map Prod.fst) = none ∧
      (1 : ℚ) < true_wavel 100) := by
  constructor
  · intro data pl hne h0 hle
    have hwg : wavel_given_of data pl ≠ [] := by
      rw [wavel_given_of]
      simpa using hne
    obtain ⟨w0, rest, hcons⟩ := List.exists_cons_of_ne_nil hwg
    have hhead : (wavel_given_of data pl).headD 0 = w0 := by rw [hcons]; rfl
    have h0w : 0 < w0 := by rw [hhead] at h0; exact h0
    have hlew : w0 ≤ (wavel_given_of data pl).getLastD 0 := by rw [hhead] at hle; exact hle
    have hwlast0 : 0 < (wavel_given_of data pl).getLastD 0 := lt_of_lt_of_le h0w hlew
    have hlt : true_wavel (lastN w0) <
        (wavel_given_of data pl).getLastD 0 * (1 + 1/1000) := by
      have hs := lastN_le w0 h0w
      have hmono : w0 * (1 - 1/1000) ≤ (wavel_given_of data pl).getLastD 0 * (1 - 1/1000) :=
        mul_le_mul_of_nonneg_right hlew (by norm_num)
      have hband : (wavel_given_of data pl).getLastD 0 * (1 - 1/1000) <
          (wavel_given_of data pl).getLastD 0 * (1 + 1/1000) :=
        mul_lt_mul_of_pos_left (by norm_num) hwlast0
      linarith
    have hmem : (true_wavel (lastN w0), lastN w0) ∈
        tw_candidates w0 ((wavel_given_of data pl).getLastD 0) := by
      rw [tw_candidates, List.mem_reverse, List.mem_filter]
      refine ⟨List.mem_map_of_mem _ (List.mem_range.mpr (by omega)), by simpa using hlt⟩
    have hcne : tw_candidates w0 ((wavel_given_of data pl).getLastD 0) ≠ [] :=
      List.ne_nil_of_mem hmem
    constructor
    · rw [hhead]
      exact hcne
    · have hlast2 : (wavel_given_of data pl).getLastD 0 = (w0 :: rest).getLastD 0 := by
        rw [hcons]
      rw [get_true_wavel, hcons]
      have hcne2 : tw_candidates w0 ((w0 :: rest).getLastD 0) ≠ [] := by
        rw [← hlast2]
        exact hcne
      have hcne3 : tw_candidates w0 ((w0 :: rest).getLast?.getD 0) ≠ [] := by
        simpa [List.getLastD] using hcne2
      simp [List.isEmpty_iff, hcne3]
  · refine ⟨by with_unfolding_all decide, by with_unfolding_all decide,
      by with_unfolding_all decide, by with_unfolding_all decide⟩

/-- Witness for C10: a two-peak input with positive increasing nominal
wavelengths `λ(700) < λ(600)` is matched totally. -/
theorem get_true_wavel_endpoints_app :
    (get_true_wavel [true_wavel 700, true_wavel 600] [0, 1]).isSome = true :=
  (get_true_wavel_endpoints.1 [true_wavel 700, true_wavel 600] [0, 1]
    (by decide) (by with_unfolding_all decide) (by with_unfolding_all decide)).2

theorem pyfoldMin_le_of_decomp {α : Type} (key : α → ℚ) {l1 l2 : List α} {r : α}
    (hstrict : ∀ y ∈ l1, key r < key y) (hle : ∀ y ∈ l2, key r ≤ key y) :
    ∀ y ∈ l1 ++ r :: l2, key r ≤ key y := by
  intro y hy
  rcases List.mem_append.mp hy with h | h
  · exact le_of_lt (hstrict y h)
  · rcases List.mem_cons.mp h with h | h
    · exact h ▸ le_refl _
    · exact hle y h

theorem pyfoldMin_decomp {α : Type} (key : α → ℚ) :
    ∀ (xs : List α) (x : α),
      ∃ l1 l2, x :: xs = l1 ++ pyfoldMin key x xs :: l2 ∧
        (∀ y ∈ l1, key (pyfoldMin key x xs) < key y) ∧
        (∀ y ∈ l2, key (pyfoldMin key x xs) ≤ key y) := by
  intro xs
  induction xs with
  | nil =>
    intro x
    exact ⟨[], [], rfl, by simp, by simp⟩
  | cons v vs ih =>
    intro x
    have hfold : pyfoldMin key x (v :: vs) =
        pyfoldMin key (if key v < key x then v else x) vs := rfl
    by_cases hv : key v < key x
    · rw [if_pos hv] at hfold
      obtain ⟨l1, l2, hdec, hstrict, hle⟩ := ih v
      have hminv : key (pyfoldMin key v vs) ≤ key v := by
        have hall := pyfoldMin_le_of_decomp key hstrict hle
        rw [← hdec] at hall
        exact hall v (List.mem_cons_self v vs)
      refine ⟨x :: l1, l2, ?_, ?_, ?_⟩
      · rw [hfold, List.cons_append, ← hdec]
      · intro y hy
        rw [hfold]
        rcases List.mem_cons.mp hy with h | h
        · subst h
          exact lt_of_le_of_lt hminv hv
        · exact hstrict y h
      · intro y hy
        rw [hfold]
        exact hle y hy
    · rw [if_neg hv] at hfold
      obtain ⟨l1, l2, hdec, hstrict, hle⟩ := ih x
      cases l1 with
      | nil =>
        simp only [List.nil_append] at hdec
        injection hdec with h1 h2
        refine ⟨[], v :: vs, ?_, by simp, ?_⟩
        · rw [hfold, ← h1]
          simp
        · intro y hy
          rw [hfold, ← h1]
          rcases List.mem_cons.mp hy with h | h
          · subst h
            exact le_of_not_lt hv
          · rw [h1]
            apply hle
            rw [← h2]
            exact h
      | cons a l1t =>
        injection hdec with hxa hvs
        rw [List.append_eq] at hvs
        refine ⟨x :: v :: l1t, l2, ?_, ?_, ?_⟩
        · rw [hfold]
          simp only [List.cons_append]
          rw [← hvs]
        · intro y hy
          rw [hfold]
          have hxmem : x ∈ a :: l1t := by
            rw [← hxa]
            exact List.mem_cons_self x l1t
          rcases List.mem_cons.mp hy with h | h
          · subst h
            exact hstrict y hxmem
          · rcases List.mem_cons.mp h with h2 | h2
            · subst h2
              exact lt_of_lt_of_le (hstrict x hxmem) (le_of_not_lt hv)
            · exact hstrict y (List.mem_cons_of_mem a h2)
        · intro y hy
          rw [hfold]
          exact hle y hy

theorem findIdx_append_done {α : Type} (p : α → Bool) :
    ∀ (l1 : List α) (a : α) (l2 : List α), (∀ x ∈ l1, p x = false) → p a = true →
      (l1 ++ a :: l2).findIdx p = l1.length := by
  intro l1
  induction l1 with
  | nil =>
    intro a l2 _ hpa
    simp [List.findIdx_cons, hpa]
  | cons b t ih =>
    intro a l2 hf hpa
    have hb : p b = false := hf b (List.mem_cons_self b t)
    simp [List.findIdx_cons, hb, ih a l2 (fun x hx => hf x (List.mem_cons_of_mem b hx)) hpa]

theorem match_one_spec (cands : List (ℚ × ℕ)) (lam : ℚ) (hne : cands ≠ []) :
    ∃ l1 l2, cands = l1 ++ match_one cands lam :: l2 ∧
      (∀ y ∈ l1, |(match_one cands lam).1 - lam| < |y.1 - lam|) ∧
      (∀ y ∈ l2, |(match_one cands lam).1 - lam| ≤ |y.1 - lam|) := by
  obtain ⟨c, cs, rfl⟩ := List.exists_cons_of_ne_nil hne
  obtain ⟨m1, m2, hdec, hstrict, hle⟩ :=
    pyfoldMin_decomp (fun x => |x - lam|) (cs.map Prod.fst) c.1
  set mv := pyfoldMin (fun x => |x - lam|) c.1 (cs.map Prod.fst) with hmvdef
  have hdec2 : (c :: cs).map Prod.fst = m1 ++ mv :: m2 := by
    rw [List.map_cons]
    exact hdec
  have hklt : m1.length < (c :: cs).length := by
    have hlen := congrArg List.length hdec2
    simp only [List.length_map, List.length_append, List.length_cons] at hlen
    simp only [List.length_cons]
    omega
  have hdrop : (c :: cs).drop m1.length =
      (c :: cs)[m1.length] :: (c :: cs).drop (m1.length + 1) :=
    List.drop_eq_getElem_cons hklt
  have htake : ((c :: cs).take m1.length).map Prod.fst = m1 := by
    rw [List.map_take, hdec2, List.take_left]
  have hdropmap : ((c :: cs).drop m1.length).map Prod.fst = mv :: m2 := by
    rw [List.map_drop, hdec2, List.drop_left]
  rw [hdrop, List.map_cons] at hdropmap
  injection hdropmap with hp1 hm2map
  have hsplit : c :: cs = (c :: cs).take m1.length ++
      (c :: cs)[m1.length] :: (c :: cs).drop (m1.length + 1) := by
    rw [← hdrop, List.take_append_drop]
  have hpm : (pymin_key (fun x => |x - lam|) ((c :: cs).map Prod.fst)).getD 0 = mv := by
    rw [List.map_cons, pymin_key]
    rfl
  have hfalse : ∀ q ∈ (c :: cs).take m1.length,
      (fun p : ℚ × ℕ => rat_eqb p.1 mv) q = false := by
    intro q hq
    have hq1 : q.1 ∈ m1 := by
      rw [← htake]
      exact List.mem_map_of_mem Prod.fst hq
    have hlt := hstrict q.1 hq1
    cases hb : rat_eqb q.1 mv with
    | false => exact hb
    | true =>
      have heq : q.1 = mv := rat_eqb_iff.mp hb
      rw [heq] at hlt
      exact absurd hlt (lt_irrefl _)
  have htrue : (fun p : ℚ × ℕ => rat_eqb p.1 mv) ((c :: cs)[m1.length]) = true :=
    rat_eqb_iff.mpr hp1
  have hfi := findIdx_append_done (fun p : ℚ × ℕ => rat_eqb p.1 mv)
    ((c :: cs).take m1.length) ((c :: cs)[m1.length]) ((c :: cs).drop (m1.length + 1))
    hfalse htrue
  have hfind : ((c :: cs).findIdx fun p => rat_eqb p.1 mv) = m1.length := by
    conv_lhs => rw [hsplit]
    rw [hfi, List.length_take]
    omega
  have hmatch : match_one (c :: cs) lam = (c :: cs)[m1.length] := by
    simp only [match_one]
    rw [hpm, hfind, List.getD_eq_getElem?_getD, List.getElem?_eq_getElem hklt]
    simp only [Option.getD_some]
    exact Prod.ext hp1.symm rfl
  refine ⟨(c :: cs).take m1.length, (c :: cs).drop (m1.length + 1), ?_, ?_, ?_⟩
  · rw [hmatch]
    exact hsplit
  · intro y hy
    rw [hmatch, hp1]
    refine hstrict y.1 ?_
    rw [← htake]
    exact List.mem_map_of_mem Prod.fst hy
  · intro y hy
    rw [hmatch, hp1]
    apply hle
    rw [← hm2map]
    exact List.mem_map_of_mem Prod.fst hy

/-- C1 (amended): for every input on which the matcher succeeds, it returns one
matched pair per peak, and each matched pair is the candidate of minimum
absolute wavelength difference to that peak's nominal wavelength — with ties
broken by first occurrence in the matcher's candidate list `tw_candidates`,
which is the reverse of the generated `n = 0, 1, 2, …` order (so a tie selects
the higher-`n`, shorter-wavelength candidate, not the first of the generated
order); in particular, when the nominal wavelength equals a candidate
wavelength exactly, the matched wavelength equals it with zero residual. -/
theorem get_true_wavel_nearest_asc_tiebreak
    (data_wavel_given : List ℚ) (peak_locs : List ℕ)
    (hsome : (get_true_wavel data_wavel_given peak_locs).isSome = true) :
    ((get_true_wavel data_wavel_given peak_locs).getD []).length = peak_locs.length ∧
    ∀ i, i < peak_locs.length →
      ∃ l1 l2,
        tw_candidates ((wavel_given_of data_wavel_given peak_locs).headD 0)
            ((wavel_given_of data_wavel_given peak_locs).getLastD 0) =
          l1 ++ ((get_true_wavel data_wavel_given peak_locs).getD []).getD i (0, 0) :: l2 ∧
        (∀ y ∈ l1,
          |(((get_true_wavel data_wavel_given peak_locs).getD []).getD i (0, 0)).1 -
              (wavel_given_of data_wavel_given peak_locs).getD i 0| <
            |y.1 - (wavel_given_of data_wavel_given peak_locs).getD i 0|) ∧
        (∀ y ∈ l2,
          |(((get_true_wavel data_wavel_given peak_locs).getD []).getD i (0, 0)).1 -
              (wavel_given_of data_wavel_given peak_locs).getD i 0| ≤
            |y.1 - (wavel_given_of data_wavel_given peak_locs).getD i 0|) ∧
        (∀ y ∈ tw_candidates ((wavel_given_of data_wavel_given peak_locs).headD 0)
            ((wavel_given_of data_wavel_given peak_locs).getLastD 0),
          y.1 = (wavel_given_of data_wavel_given peak_locs).getD i 0 →
          (((get_true_wavel data_wavel_given peak_locs).getD []).getD i (0, 0)).1 =
            (wavel_given_of data_wavel_given peak_locs).getD i 0) := by
  cases hwg : wavel_given_of data_wavel_given peak_locs with
  | nil =>
    exfalso
    simp only [get_true_wavel] at hsome
    rw [hwg] at hsome
    simp at hsome
  | cons w0 rest =>
    have hgw : get_true_wavel data_wavel_given peak_locs =
        if (tw_candidates w0 ((w0 :: rest).getLastD 0)).isEmpty then none
        else some ((w0 :: rest).map fun lam =>
          match_one (tw_candidates w0 ((w0 :: rest).getLastD 0)) lam) := by
      simp only [get_true_wavel]
      rw [hwg]
    cases hemp : (tw_candidates w0 ((w0 :: rest).getLastD 0)).isEmpty with
    | true =>
      exfalso
      rw [hgw, hemp] at hsome
      simp at hsome
    | false =>
      have hres : get_true_wavel data_wavel_given peak_locs =
          some ((w0 :: rest).map fun lam =>
            match_one (tw_candidates w0 ((w0 :: rest).getLastD 0)) lam) := by
        rw [hgw, hemp]
        rfl
      have hcne : tw_candidates w0 ((w0 :: rest).getLastD 0) ≠ [] := by
        intro h
        rw [h] at hemp
        simp at hemp
      have hpl : peak_locs.length = rest.length + 1 := by
        have hl := congrArg List.length hwg
        simp only [wavel_given_of, List.length_map, List.length_cons] at hl
        exact hl
      constructor
      · rw [hres, Option.getD_some, List.length_map, List.length_cons, hpl]
      · intro i hi
        have hi2 : i < (w0 :: rest).length := by
          rw [List.length_cons, ← hpl]
          exact hi
        have hwgi : ((get_true_wavel data_wavel_given peak_locs).getD []).getD i (0, 0) =
            match_one (tw_candidates w0 ((w0 :: rest).getLastD 0))
              ((w0 :: rest).getD i 0) := by
          rw [hres, Option.getD_some]
          rw [List.getD_eq_getElem?_getD, List.getD_eq_getElem?_getD, List.getElem?_map]
          rw [List.getElem?_eq_getElem hi2]
          rfl
        obtain ⟨l1, l2, hdec, hstrict, hle⟩ :=
          match_one_spec (tw_candidates w0 ((w0 :: rest).getLastD 0))
            ((w0 :: rest).getD i 0) hcne
        refine ⟨l1, l2, ?_, ?_, ?_, ?_⟩
        · simp only [List.headD_cons]
          rw [hwgi]
          exact hdec
        · intro y hy
          rw [hwgi]
          exact hstrict y hy
        · intro y hy
          rw [hwgi]
          exact hle y hy
        · intro y hy hy1
          simp only [List.headD_cons] at hy
          rw [hwgi]
          have hymem : y ∈ l1 ++ match_one (tw_candidates w0 ((w0 :: rest).getLastD 0))
              ((w0 :: rest).getD i 0) :: l2 := by
            rw [← hdec]
            exact hy
          rcases List.mem_append.mp hymem with h | h
          · exfalso
            have hlt := hstrict y h
            rw [hy1, sub_self, abs_zero] at hlt
            exact absurd (abs_nonneg _) (not_le.mpr hlt)
          · rcases List.mem_cons.mp h with h2 | h2
            · rw [← h2]
              exact hy1
            · have hle2 := hle y h2
              rw [hy1, sub_self, abs_zero] at hle2
              have hz := le_antisymm hle2 (abs_nonneg _)
              exact sub_eq_zero.mp (abs_eq_zero.mp hz)

/-- Witness for C1 (amended): with one peak whose nominal wavelength is exactly
`λ(600)`, the matcher succeeds and returns exactly one pair. -/
theorem get_true_wavel_nearest_asc_tiebreak_app :
    (get_true_wavel [true_wavel 600] [0]).isSome = true ∧
    ((get_true_wavel [true_wavel 600] [0]).getD []).length = 1 := by
  have hs : (get_true_wavel [true_wavel 600] [0]).isSome = true := by
    with_unfolding_all decide
  exact ⟨hs, (get_true_wavel_nearest_asc_tiebreak [true_wavel 600] [0] hs).1⟩

/-- Counterexample to C1 as stated: at the nominal wavelength exactly midway
between the generated candidates `λ(500)` and `λ(501)` — an exact tie in
absolute difference between two distinct candidates — the source returns mode
`501` (first occurrence in its reversed, ascending-wavelength candidate list),
whereas first occurrence in the generated `n = 0, 1, 2, …` sequence would be
mode `500`. -/
theorem get_true_wavel_generated_order_tiebreak_cex :
    ((get_true_wavel [(true_wavel 500 + true_wavel 501) / 2] [0]).getD []).map Prod.snd =
      [501] ∧
    (claimed_generated_order_match ((true_wavel 500 + true_wavel 501) / 2)
        ((true_wavel 500 + true_wavel 501) / 2)
        ((true_wavel 500 + true_wavel 501) / 2)).map Prod.snd = some 500 ∧
    |true_wavel 500 - (true_wavel 500 + true_wavel 501) / 2| =
      |true_wavel 501 - (true_wavel 500 + true_wavel 501) / 2| ∧
    true_wavel 500 ≠ true_wavel 501 := by
  have h1 : true_wavel 501 < true_wavel 500 := by with_unfolding_all decide
  refine ⟨by with_unfolding_all decide, by with_unfolding_all decide, ?_, ne_of_gt h1⟩
  rw [abs_of_nonneg (by linarith), abs_of_nonpos (by linarith)]
  ring
